import Mathlib

/-!
Shallow embedding of the live-tail terminal renderer of `backup.py`
(`class LiveTail`, lines 200-251, and the driving loop `stream_command`,
lines 253-288).

Modelling conventions:
* a Python `str` is a Lean `String` (a list of Unicode code points, which
  matches Python's code-point indexing and slicing);
* the regex `re.search(r"(\d{1,3})%", line)` is embedded as an executable
  leftmost-match scanner `searchPct` over the character list; the class `\d`
  is modelled as the ASCII digits `0`-`9` (`isDig`);
* `collections.deque(maxlen=n)` is a `List String` that keeps only the `n`
  most recently appended elements (`dequeAppend`, via `lastN`);
* terminal writes are reified as a trace of `Out` tokens: the two ANSI
  control sequences the code emits (`"\x1b[{k}F"` = move the cursor up `k`
  rows, `"\x1b[2K"` = clear the current line) become `Out.moveUpF k` and
  `Out.clearLine`, and every plain `sys.stdout.write`/`print` payload
  becomes `Out.text`.
-/

/-- The ASCII digit test: models the regex character class `\d` on the
ASCII range (`48 ≤ code ≤ 57`). -/
def isDig (c : Char) : Bool :=
  48 ≤ c.toNat && c.toNat ≤ 57

/-- Python's `line.rstrip("\n")`: remove every trailing `'\n'` character. -/
def rstripNewlines (s : String) : String :=
  String.mk ((s.data.reverse.dropWhile (fun c => c == '\n')).reverse)

/-- Attempt to match the regex `(\d{1,3})%` anchored at the head of the
character list, greedily (three digits first, then two, then one), exactly
as the backtracking engine does at one start position.  Returns the digit
group (without the `%`). -/
def matchPctAt : List Char → Option (List Char)
  | c1 :: c2 :: c3 :: c4 :: _ =>
    if isDig c1 ∧ isDig c2 ∧ isDig c3 ∧ c4 = '%' then some [c1, c2, c3]
    else if isDig c1 ∧ isDig c2 ∧ c3 = '%' then some [c1, c2]
    else if isDig c1 ∧ c2 = '%' then some [c1]
    else none
  | [c1, c2, c3] =>
    if isDig c1 ∧ isDig c2 ∧ c3 = '%' then some [c1, c2]
    else if isDig c1 ∧ c2 = '%' then some [c1]
    else none
  | [c1, c2] =>
    if isDig c1 ∧ c2 = '%' then some [c1]
    else none
  | _ => none

/-- `re.search(r"(\d{1,3})%", line)`: scan left to right and return the
digit group of the leftmost match, if any. -/
def searchPct : List Char → Option (List Char)
  | [] => none
  | c :: rest =>
    match matchPctAt (c :: rest) with
    | some m => some m
    | none => searchPct rest

/-- The last `n` elements of a list, in order. -/
def lastN {α : Type _} (n : Nat) (l : List α) : List α :=
  (l.reverse.take n).reverse

/-- `deque(maxlen := m).append x`: append on the right, keeping only the
`m` most recent elements (the oldest is evicted first). -/
def dequeAppend (m : Nat) (buf : List String) (x : String) : List String :=
  lastN m (buf ++ [x])

/-- One terminal write performed by the renderer. -/
inductive Out : Type
  /-- The ANSI sequence `"\x1b[{k}F"`: move the cursor up `k` rows. -/
  | moveUpF : Nat → Out
  /-- The ANSI sequence `"\x1b[2K"`: clear the current line. -/
  | clearLine : Out
  /-- A plain text payload. -/
  | text : String → Out
deriving DecidableEq

/-- Python's `x or d` for an optional string `x`: `d` when `x` is `None`
or the empty string (both falsy), else the string itself. -/
def pyOr (o : Option String) (d : String) : String :=
  match o with
  | none => d
  | some s => if s = "" then d else s

/-- The state of `class LiveTail` (backup.py lines 200-251): the tail
height `lines`, the bounded buffer `buf` (`deque(maxlen=lines)`), the last
extracted percentage `percent` (`None` initially), and the `ansi` flag
(whether stdout is an interactive terminal). -/
structure LiveTail : Type where
  lines : Nat
  buf : List String
  percent : Option String
  ansi : Bool
deriving DecidableEq

/-- `LiveTail.__init__(lines=5)`: empty buffer, no percentage yet; `ansi`
records `sys.stdout.isatty()`.  (The constructor also prints `lines + 1`
blank lines once to reserve the block; that one-time reservation is not
part of any `update` trace.) -/
def LiveTail.init (lines : Nat) (ansi : Bool) : LiveTail :=
  ⟨lines, [], none, ansi⟩

/-- `LiveTail.update(line)` (backup.py lines 211-245): strip trailing
newlines; if empty, do nothing; otherwise extract a percentage if present,
append to the buffer, and either print the line plainly (non-TTY) or
redraw the reserved block of `lines + 1` rows (TTY).  Returns the new
state together with the trace of writes performed. -/
def LiveTail.update (st : LiveTail) (rawLine : String) : LiveTail × List Out :=
  let line := rstripNewlines rawLine
  if line = "" then (st, [])
  else
    let percentNew : Option String :=
      match searchPct line.data with
      | some p => some (String.mk p)
      | none => st.percent
    let bufNew := dequeAppend st.lines st.buf line
    if st.ansi then
      (⟨st.lines, bufNew, percentNew, st.ansi⟩,
        Out.moveUpF (st.lines + 1) :: Out.clearLine ::
        Out.text ("Progress: " ++ pyOr percentNew "--" ++ "%\n") ::
        (List.range st.lines).flatMap (fun i =>
          Out.clearLine ::
          (match bufNew[i]? with
           | some s => [Out.text (s.take 160), Out.text "\n"]
           | none => [Out.text "\n"])))
    else
      (⟨st.lines, bufNew, percentNew, st.ansi⟩, [Out.text (line ++ "\n")])

/-- Feed a sequence of lines through `update`, keeping only the state. -/
def LiveTail.run (st : LiveTail) (ls : List String) : LiveTail :=
  ls.foldl (fun s l => (s.update l).1) st

/-- Feed a sequence of lines through `update`, accumulating the full
write trace. -/
def LiveTail.runOut (st : LiveTail) (ls : List String) : LiveTail × List Out :=
  ls.foldl (fun acc l =>
    let r := acc.1.update l
    (r.1, acc.2 ++ r.2)) (st, [])

/-- The lines the renderer actually keeps: each input stripped of trailing
newlines, with the ones that became empty discarded. -/
def keptLines (ls : List String) : List String :=
  (ls.map rstripNewlines).filter (fun l => !(l == ""))

/-- Number of `clearLine` tokens in a trace: each redrawn row is cleared
exactly once, so this counts redrawn rows. -/
def countClears : List Out → Nat
  | [] => 0
  | Out.clearLine :: r => countClears r + 1
  | _ :: r => countClears r

/-- Numeric value of a digit string (most significant digit first). -/
def digitsToNat (cs : List Char) : Nat :=
  cs.foldl (fun a c => a * 10 + (c.toNat - 48)) 0

/-- Outcome of `stream_command` (backup.py lines 253-288): `sys.exit(1)`
on a non-zero child return code, normal completion otherwise. -/
inductive CmdOutcome : Type
  | fatalExit : Nat → CmdOutcome
  | ok : CmdOutcome
deriving DecidableEq

/-- `stream_command` (backup.py lines 253-288), abstracted over the
child's behaviour: given the list of lines the child wrote and its return
code, the loop feeds every line to a fresh `LiveTail()` (tail height 5)
when `use_live_tail` is set and stdout is a TTY (otherwise the child's
output passes through untouched and no `LiveTail` exists), and only after
the output is fully drained checks `proc.returncode`, calling
`sys.exit(1)` when it is non-zero. -/
def stream_command (outLines : List String) (returncode : Int)
    (isatty use_live_tail : Bool) : CmdOutcome × Option LiveTail :=
  let finalTail : Option LiveTail :=
    if use_live_tail && isatty then
      some ((LiveTail.init 5 isatty).run outLines)
    else none
  (if returncode ≠ 0 then CmdOutcome.fatalExit 1 else CmdOutcome.ok, finalTail)

/-- The occurrence predicate behind the claims' phrase "the line contains
1-3 consecutive digits immediately followed by `%`": `q` is a group of one
to three digits and `q ++ "%"` occurs contiguously in `s`. -/
def digitsPct (q s : List Char) : Prop :=
  1 ≤ q.length ∧ q.length ≤ 3 ∧ (∀ c ∈ q, isDig c = true) ∧
    ∃ x y, s = x ++ q ++ '%' :: y

theorem update_fst (st : LiveTail) (l : String) :
    (st.update l).1 =
      if rstripNewlines l = "" then st
      else
        ⟨st.lines, dequeAppend st.lines st.buf (rstripNewlines l),
          (match searchPct (rstripNewlines l).data with
           | some p => some (String.mk p)
           | none => st.percent), st.ansi⟩ := by
  simp only [LiveTail.update]
  split
  · rfl
  · split <;> rfl

theorem update_lines (st : LiveTail) (l : String) :
    (st.update l).1.lines = st.lines := by
  rw [update_fst]; split <;> rfl

theorem update_ansi (st : LiveTail) (l : String) :
    (st.update l).1.ansi = st.ansi := by
  rw [update_fst]; split <;> rfl

theorem length_lastN {α : Type _} (n : Nat) (l : List α) :
    (lastN n l).length = min n l.length := by
  simp [lastN]

theorem lastN_of_length_le {α : Type _} {n : Nat} {l : List α}
    (h : l.length ≤ n) : lastN n l = l := by
  unfold lastN
  rw [List.take_of_length_le (by simpa using h), List.reverse_reverse]

theorem take_append_take {α : Type _} (n : Nat) (x y : List α) :
    (x ++ y.take n).take n = (x ++ y).take n := by
  rw [List.take_append_eq_append_take, List.take_append_eq_append_take,
    List.take_take, Nat.min_eq_left (Nat.sub_le n x.length)]

theorem lastN_append_lastN {α : Type _} (n : Nat) (a b : List α) :
    lastN n (lastN n a ++ b) = lastN n (a ++ b) := by
  simp only [lastN, List.reverse_append, List.reverse_reverse]
  rw [take_append_take]

theorem lastN_suffix {α : Type _} (n : Nat) (l : List α) :
    ∃ pre, l = pre ++ lastN n l := by
  refine ⟨(l.reverse.drop n).reverse, ?_⟩
  rw [lastN, ← List.reverse_append, List.take_append_drop, List.reverse_reverse]

theorem keptLines_cons_empty {l : String} (ls : List String)
    (h : rstripNewlines l = "") : keptLines (l :: ls) = keptLines ls := by
  simp [keptLines, List.filter_cons, h]

theorem keptLines_cons_nonempty {l : String} (ls : List String)
    (h : ¬ rstripNewlines l = "") :
    keptLines (l :: ls) = rstripNewlines l :: keptLines ls := by
  simp [keptLines, List.filter_cons, h]

theorem run_buf (ls : List String) : ∀ st : LiveTail,
    st.buf.length ≤ st.lines →
    (st.run ls).buf = lastN st.lines (st.buf ++ keptLines ls) := by
  induction ls with
  | nil =>
    intro st h
    simp only [LiveTail.run, List.foldl_nil, keptLines, List.map_nil,
      List.filter_nil, List.append_nil]
    exact (lastN_of_length_le h).symm
  | cons l ls ih =>
    intro st h
    show ((st.update l).1.run ls).buf = _
    by_cases he : rstripNewlines l = ""
    · have h1 : (st.update l).1 = st := by rw [update_fst, if_pos he]
      rw [h1, ih st h, keptLines_cons_empty ls he]
    · have h1 : (st.update l).1 =
          ⟨st.lines, dequeAppend st.lines st.buf (rstripNewlines l),
            (match searchPct (rstripNewlines l).data with
             | some p => some (String.mk p)
             | none => st.percent), st.ansi⟩ := by
        rw [update_fst, if_neg he]
      have h2 : (st.update l).1.buf.length ≤ (st.update l).1.lines := by
        rw [h1]
        simp [dequeAppend, length_lastN]
      rw [ih _ h2, h1, keptLines_cons_nonempty ls he]
      show lastN st.lines (dequeAppend st.lines st.buf (rstripNewlines l)
          ++ keptLines ls) = _
      rw [dequeAppend, lastN_append_lastN, List.append_assoc,
        List.singleton_append]

theorem run_lines (ls : List String) (st : LiveTail) :
    (st.run ls).lines = st.lines := by
  induction ls generalizing st with
  | nil => rfl
  | cons l ls ih =>
    show ((st.update l).1.run ls).lines = st.lines
    rw [ih, update_lines]

theorem matchPctAt_sound {cs p : List Char} (h : matchPctAt cs = some p) :
    1 ≤ p.length ∧ p.length ≤ 3 ∧ (∀ c ∈ p, isDig c = true) ∧
      ∃ y, cs = p ++ '%' :: y := by
  rcases cs with _ | ⟨c1, _ | ⟨c2, _ | ⟨c3, _ | ⟨c4, rest⟩⟩⟩⟩
  · simp [matchPctAt] at h
  · simp [matchPctAt] at h
  · simp only [matchPctAt] at h
    split_ifs at h with h1
    · obtain ⟨hd1, he⟩ := h1
      injection h with h'
      subst h'; subst he
      refine ⟨by simp, by simp, ?_, ⟨[], rfl⟩⟩
      intro c hc; fin_cases hc; exact hd1
  · simp only [matchPctAt] at h
    split_ifs at h with h1 h2
    · obtain ⟨hd1, hd2, he⟩ := h1
      injection h with h'
      subst h'; subst he
      refine ⟨by simp, by simp, ?_, ⟨[], rfl⟩⟩
      intro c hc; fin_cases hc <;> assumption
    · obtain ⟨hd1, he⟩ := h2
      injection h with h'
      subst h'; subst he
      refine ⟨by simp, by simp, ?_, ⟨[c3], rfl⟩⟩
      intro c hc; fin_cases hc; exact hd1
  · simp only [matchPctAt] at h
    split_ifs at h with h1 h2 h3
    · obtain ⟨hd1, hd2, hd3, he⟩ := h1
      injection h with h'
      subst h'; subst he
      refine ⟨by simp, by simp, ?_, ⟨rest, rfl⟩⟩
      intro c hc; fin_cases hc <;> assumption
    · obtain ⟨hd1, hd2, he⟩ := h2
      injection h with h'
      subst h'; subst he
      refine ⟨by simp, by simp, ?_, ⟨c4 :: rest, rfl⟩⟩
      intro c hc; fin_cases hc <;> assumption
    · obtain ⟨hd1, he⟩ := h3
      injection h with h'
      subst h'; subst he
      refine ⟨by simp, by simp, ?_, ⟨c3 :: c4 :: rest, rfl⟩⟩
      intro c hc; fin_cases hc; exact hd1

theorem matchPctAt_complete (q y : List Char) (h1 : 1 ≤ q.length)
    (h3 : q.length ≤ 3) (hd : ∀ c ∈ q, isDig c = true) :
    ∃ p, matchPctAt (q ++ '%' :: y) = some p := by
  have hpd : isDig '%' = false := by decide
  rcases q with _ | ⟨d1, _ | ⟨d2, _ | ⟨d3, _ | ⟨d4, t⟩⟩⟩⟩
  · exact absurd h1 (by simp)
  · rcases y with _ | ⟨e1, t2⟩
    · exact ⟨[d1], by simp [matchPctAt, hd d1 (by simp)]⟩
    · rcases t2 with _ | ⟨e2, t3⟩
      · exact ⟨[d1], by simp [matchPctAt, hd d1 (by simp), hpd]⟩
      · exact ⟨[d1], by simp [matchPctAt, hd d1 (by simp), hpd]⟩
  · rcases y with _ | ⟨e1, t2⟩
    · exact ⟨[d1, d2], by
        simp [matchPctAt, hd d1 (by simp), hd d2 (by simp)]⟩
    · exact ⟨[d1, d2], by
        simp [matchPctAt, hd d1 (by simp), hd d2 (by simp), hpd]⟩
  · exact ⟨[d1, d2, d3], by
      simp [matchPctAt, hd d1 (by simp), hd d2 (by simp), hd d3 (by simp)]⟩
  · exact absurd h3 (by simp)

theorem searchPct_sound : ∀ (cs p : List Char),
    searchPct cs = some p → digitsPct p cs := by
  intro cs
  induction cs with
  | nil => intro p h; simp [searchPct] at h
  | cons c t ih =>
    intro p h
    cases hm : matchPctAt (c :: t) with
    | some m =>
      simp only [searchPct, hm] at h
      injection h with h'
      subst h'
      obtain ⟨l1, l3, ld, y, hy⟩ := matchPctAt_sound hm
      exact ⟨l1, l3, ld, [], y, by simpa using hy⟩
    | none =>
      simp only [searchPct, hm] at h
      obtain ⟨l1, l3, ld, x, y, hy⟩ := ih p h
      exact ⟨l1, l3, ld, c :: x, y, by simp [hy]⟩

theorem searchPct_complete : ∀ (x q y : List Char), 1 ≤ q.length →
    q.length ≤ 3 → (∀ c ∈ q, isDig c = true) →
    ∃ p, searchPct (x ++ q ++ '%' :: y) = some p := by
  intro x
  induction x with
  | nil =>
    intro q y h1 h3 hd
    rcases q with _ | ⟨d, q'⟩
    · exact absurd h1 (by simp)
    · obtain ⟨p, hp⟩ := matchPctAt_complete (d :: q') y h1 h3 hd
      refine ⟨p, ?_⟩
      simp only [List.nil_append, List.cons_append] at hp ⊢
      simp [searchPct, hp]
  | cons a x ih =>
    intro q y h1 h3 hd
    cases hm : matchPctAt (a :: (x ++ q ++ '%' :: y)) with
    | some m =>
      refine ⟨m, ?_⟩
      simp only [List.cons_append, searchPct, List.append_eq, hm]
    | none =>
      obtain ⟨p, hp⟩ := ih q y h1 h3 hd
      refine ⟨p, ?_⟩
      simp only [List.cons_append, searchPct, List.append_eq, hm, hp]

theorem digitsPct_searchPct {q s : List Char} (h : digitsPct q s) :
    ∃ p, searchPct s = some p := by
  obtain ⟨h1, h3, hd, x, y, hs⟩ := h
  subst hs
  exact searchPct_complete x q y h1 h3 hd

theorem digitsPct_nil (q : List Char) : ¬ digitsPct q [] := by
  rintro ⟨h1, h3, hd, x, y, hs⟩
  simp at hs

theorem update_percent_no_match (st : LiveTail) (l : String)
    (h : searchPct (rstripNewlines l).data = none) :
    (st.update l).1.percent = st.percent := by
  rw [update_fst]
  split
  · rfl
  · simp [h]

theorem update_percent_match (st : LiveTail) (l : String) (p : List Char)
    (h : searchPct (rstripNewlines l).data = some p)
    (hne : rstripNewlines l ≠ "") :
    (st.update l).1.percent = some (String.mk p) := by
  rw [update_fst, if_neg hne]
  simp [h]

theorem update_percent_cases (st : LiveTail) (l : String) :
    (st.update l).1.percent = st.percent ∨
      ∃ p, searchPct (rstripNewlines l).data = some p ∧
        (st.update l).1.percent = some (String.mk p) := by
  cases hm : searchPct (rstripNewlines l).data with
  | none => exact Or.inl (update_percent_no_match st l hm)
  | some p =>
    by_cases he : rstripNewlines l = ""
    · exact Or.inl (by rw [update_fst, if_pos he])
    · exact Or.inr ⟨p, rfl, update_percent_match st l p hm he⟩

theorem run_percent_ne_none (ls : List String) : ∀ st : LiveTail,
    st.percent ≠ none → (st.run ls).percent ≠ none := by
  induction ls with
  | nil => intro st h; exact h
  | cons l ls ih =>
    intro st h
    show ((st.update l).1.run ls).percent ≠ none
    apply ih
    rcases update_percent_cases st l with hc | ⟨p, _, hc⟩
    · rw [hc]; exact h
    · rw [hc]; simp

/-- A percentage value has the shape the extractor can produce: one to
three ASCII digits. -/
def goodPercent (o : Option String) : Prop :=
  ∀ p, o = some p →
    1 ≤ p.length ∧ p.length ≤ 3 ∧ ∀ c ∈ p.data, isDig c = true

theorem run_goodPercent (ls : List String) : ∀ st : LiveTail,
    goodPercent st.percent → goodPercent (st.run ls).percent := by
  induction ls with
  | nil => intro st h; exact h
  | cons l ls ih =>
    intro st h
    apply ih
    rcases update_percent_cases st l with hc | ⟨p, hm, hc⟩
    · rw [hc]; exact h
    · rw [hc]
      intro q hq
      injection hq with hq'
      subst hq'
      obtain ⟨l1, l3, ld, _⟩ := searchPct_sound _ _ hm
      exact ⟨l1, l3, ld⟩

theorem digitsToNat_aux_le (cs : List Char) : ∀ a : Nat,
    (∀ c ∈ cs, isDig c = true) →
    cs.foldl (fun a c => a * 10 + (c.toNat - 48)) a ≤
      (a + 1) * 10 ^ cs.length - 1 := by
  induction cs with
  | nil => intro a _; simp
  | cons c cs ih =>
    intro a h
    have hd : c.toNat - 48 ≤ 9 := by
      have hc := h c (by simp)
      simp [isDig] at hc
      omega
    have h2 := ih (a * 10 + (c.toNat - 48)) (fun x hx => h x (by simp [hx]))
    have step : (a * 10 + (c.toNat - 48) + 1) * 10 ^ cs.length ≤
        (a + 1) * 10 ^ (cs.length + 1) := by
      rw [pow_succ]
      calc (a * 10 + (c.toNat - 48) + 1) * 10 ^ cs.length
          ≤ ((a + 1) * 10) * 10 ^ cs.length :=
            Nat.mul_le_mul_right _ (by omega)
        _ = (a + 1) * (10 ^ cs.length * 10) := by ring
    simp only [List.foldl_cons, List.length_cons]
    omega

theorem digitsToNat_le_999 {cs : List Char} (h3 : cs.length ≤ 3)
    (hd : ∀ c ∈ cs, isDig c = true) : digitsToNat cs ≤ 999 := by
  have h1 := digitsToNat_aux_le cs 0 hd
  have hp : 10 ^ cs.length ≤ 1000 := by
    calc 10 ^ cs.length ≤ 10 ^ 3 := Nat.pow_le_pow_right (by norm_num) h3
      _ = 1000 := by norm_num
  unfold digitsToNat
  omega

/-- C1: for every sequence of input lines and every tail height `N`, after
any number of `update` calls the buffer is exactly the last `min(count, N)`
non-empty stripped lines, in arrival order (a suffix of the arrival list,
so the oldest lines are the ones evicted), and its length never exceeds
`N`. -/
theorem tailBuffer_last_min_invariant (N : Nat) (b : Bool) (ls : List String) :
    ((LiveTail.init N b).run ls).buf = lastN N (keptLines ls) ∧
    ((LiveTail.init N b).run ls).buf.length = min (keptLines ls).length N ∧
    ((LiveTail.init N b).run ls).buf.length ≤ N ∧
    ∃ pre, keptLines ls = pre ++ ((LiveTail.init N b).run ls).buf := by
  have hb : ((LiveTail.init N b).run ls).buf = lastN N (keptLines ls) := by
    have h := run_buf ls (LiveTail.init N b) (by simp [LiveTail.init])
    simpa [LiveTail.init] using h
  refine ⟨hb, ?_, ?_, ?_⟩
  · rw [hb, length_lastN, Nat.min_comm]
  · rw [hb, length_lastN]; exact Nat.min_le_left _ _
  · rw [hb]; exact lastN_suffix N (keptLines ls)

/-- C2: if the (stripped) line contains one to three consecutive digits
immediately followed by `%`, then after `update` the percentage is set
(overwriting whatever was there) to such a digit group, without the `%`
sign. -/
theorem progress_set_on_percent_line (st : LiveTail) (line : String)
    (q : List Char) (h : digitsPct q (rstripNewlines line).data) :
    ∃ p, digitsPct p (rstripNewlines line).data ∧
      (st.update line).1.percent = some (String.mk p) := by
  have hne : rstripNewlines line ≠ "" := by
    intro he
    rw [he] at h
    exact digitsPct_nil q h
  obtain ⟨p, hp⟩ := digitsPct_searchPct h
  exact ⟨p, searchPct_sound _ _ hp, update_percent_match st line p hp hne⟩

theorem progress_set_on_percent_line_w :
    ∃ p, digitsPct p (rstripNewlines "x50% done").data ∧
      ((LiveTail.init 2 false).update "x50% done").1.percent =
        some (String.mk p) :=
  progress_set_on_percent_line (LiveTail.init 2 false) "x50% done" ['5', '0']
    ⟨by decide, by decide, by decide, ['x'], " done".data, by decide⟩

/-- C4: once a percentage has been observed it never becomes absent again
(for any continuation of the session), and an update whose line contains
no digit-percent pattern leaves the percentage exactly as it was. -/
theorem progress_persistence (st : LiveTail) (l : String) (ls : List String)
    (hset : st.percent ≠ none)
    (hno : ∀ q, ¬ digitsPct q (rstripNewlines l).data) :
    (st.run ls).percent ≠ none ∧ (st.update l).1.percent = st.percent := by
  have hsearch : searchPct (rstripNewlines l).data = none := by
    cases hm : searchPct (rstripNewlines l).data with
    | none => rfl
    | some p => exact absurd (searchPct_sound _ _ hm) (hno p)
  exact ⟨run_percent_ne_none ls st hset, update_percent_no_match st l hsearch⟩

theorem progress_persistence_w :
    ((⟨5, [], some "20", false⟩ : LiveTail).run ["x"]).percent ≠ none ∧
      ((⟨5, [], some "20", false⟩ : LiveTail).update "abc").1.percent =
        some "20" := by
  have hno : ∀ q, ¬ digitsPct q (rstripNewlines "abc").data := by
    intro q hq
    obtain ⟨p, hp⟩ := digitsPct_searchPct hq
    rw [show searchPct (rstripNewlines "abc").data = none from by decide] at hp
    exact Option.noConfusion hp
  exact progress_persistence ⟨5, [], some "20", false⟩ "abc" ["x"]
    (by simp) hno

/-- C7: an update whose line is empty after stripping trailing newlines
changes neither the buffer nor the percentage and writes nothing. -/
theorem empty_line_noop (st : LiveTail) (l : String)
    (h : rstripNewlines l = "") :
    (st.update l).1.buf = st.buf ∧ (st.update l).1.percent = st.percent ∧
      (st.update l).2 = [] := by
  have h1 : st.update l = (st, []) := by
    simp [LiveTail.update, h]
  rw [h1]
  exact ⟨rfl, rfl, rfl⟩

theorem empty_line_noop_w :
    ((LiveTail.init 5 true).update "\n").1.buf = (LiveTail.init 5 true).buf ∧
      ((LiveTail.init 5 true).update "\n").1.percent =
        (LiveTail.init 5 true).percent ∧
      ((LiveTail.init 5 true).update "\n").2 = [] :=
  empty_line_noop (LiveTail.init 5 true) "\n" (by decide)

/-- C8: the concrete scenario with tail height 5: after feeding `"10%"`,
`"process A"`, `"20%"`, `"process B"` ... `"process F"`, the buffer holds
processes B through F and the percentage is `"20"`. -/
theorem scenario_tail5 (b : Bool) :
    ((LiveTail.init 5 b).run ["10%", "process A", "20%", "process B",
        "process C", "process D", "process E", "process F"]).buf =
      ["process B", "process C", "process D", "process E", "process F"] ∧
    ((LiveTail.init 5 b).run ["10%", "process A", "20%", "process B",
        "process C", "process D", "process E", "process F"]).percent =
      some "20" := by
  cases b <;> exact ⟨by decide, by decide⟩

/-- C3 counterexample: the extractor accepts up to three digits, so the
line `"999%"` sets the percentage to `"999"`, whose numeric value 999 is
not in the range 0-100 the claim asserts. -/
theorem progress_range_counterexample :
    ((LiveTail.init 5 false).update "999%").1.percent = some "999" ∧
      digitsToNat "999".data = 999 ∧ ¬ digitsToNat "999".data ≤ 100 :=
  ⟨by decide, by decide, by decide⟩

/-- C3 (amended): whenever the percentage is set, its value is a string
of one to three ASCII digits — hence a numeric value in the range 0-999,
not 0-100 (the code puts no upper bound of 100 on the matched number). -/
theorem progress_digits_amended (N : Nat) (b : Bool) (ls : List String)
    (p : String) (h : ((LiveTail.init N b).run ls).percent = some p) :
    1 ≤ p.length ∧ p.length ≤ 3 ∧ (∀ c ∈ p.data, isDig c = true) ∧
      digitsToNat p.data ≤ 999 := by
  have hg := run_goodPercent ls (LiveTail.init N b)
    (fun q hq => Option.noConfusion hq)
  obtain ⟨l1, l3, ld⟩ := hg p h
  exact ⟨l1, l3, ld, digitsToNat_le_999 l3 ld⟩

theorem progress_digits_amended_w :
    1 ≤ ("999" : String).length ∧ ("999" : String).length ≤ 3 ∧
      (∀ c ∈ ("999" : String).data, isDig c = true) ∧
      digitsToNat ("999" : String).data ≤ 999 :=
  progress_digits_amended 5 false ["999%"] "999" (by decide)

/-- C6: in non-interactive mode an update on a non-empty line emits
exactly the stripped line followed by the normalized terminator, and none
of the ANSI control tokens; and the `N = 3` scenario feeding `"a"`, `""`,
`"b"` emits exactly `"a"` then `"b"` (the empty line produces nothing). -/
theorem noninteractive_passthrough (st : LiveTail) (line : String)
    (hansi : st.ansi = false) (hne : rstripNewlines line ≠ "") :
    (st.update line).2 = [Out.text (rstripNewlines line ++ "\n")] ∧
    (∀ o ∈ (st.update line).2,
      (∀ k, o ≠ Out.moveUpF k) ∧ o ≠ Out.clearLine) ∧
    ((LiveTail.init 3 false).runOut ["a", "", "b"]).2 =
      [Out.text "a\n", Out.text "b\n"] := by
  have h2 : (st.update line).2 = [Out.text (rstripNewlines line ++ "\n")] := by
    simp [LiveTail.update, hne, hansi]
  refine ⟨h2, ?_, by decide⟩
  intro o ho
  rw [h2] at ho
  simp at ho
  subst ho
  exact ⟨fun k => by simp, by simp⟩

theorem noninteractive_passthrough_w :
    ((LiveTail.init 3 false).update "a").2 =
      [Out.text (rstripNewlines "a" ++ "\n")] :=
  (noninteractive_passthrough (LiveTail.init 3 false) "a" rfl (by decide)).1

/-- C9: the driving loop exits fatally (`sys.exit(1)`) exactly when the
child's return code is non-zero, and decides this only after the whole
output stream has been drained: in the live-tail branch the renderer state
at that point is the run over every output line. -/
theorem stream_command_exit_policy (outLines : List String) (rc : Int)
    (tty ult : Bool) :
    ((stream_command outLines rc tty ult).1 = CmdOutcome.fatalExit 1 ↔
      rc ≠ 0) ∧
    (tty = true → ult = true →
      (stream_command outLines rc tty ult).2 =
        some ((LiveTail.init 5 true).run outLines)) := by
  constructor
  · by_cases h : rc ≠ 0 <;> simp [stream_command, h]
  · intro h1 h2
    simp [stream_command, h1, h2]

theorem stream_command_exit_policy_w :
    (stream_command ["a"] 3 true true).1 = CmdOutcome.fatalExit 1 ∧
      (stream_command ["a"] 3 true true).2 =
        some ((LiveTail.init 5 true).run ["a"]) :=
  ⟨(stream_command_exit_policy ["a"] 3 true true).1.mpr (by decide),
   (stream_command_exit_policy ["a"] 3 true true).2 rfl rfl⟩

@[simp] theorem countClears_nil : countClears [] = 0 := rfl

@[simp] theorem countClears_clear (r : List Out) :
    countClears (Out.clearLine :: r) = countClears r + 1 := rfl

@[simp] theorem countClears_moveUpF (k : Nat) (r : List Out) :
    countClears (Out.moveUpF k :: r) = countClears r := rfl

@[simp] theorem countClears_text (s : String) (r : List Out) :
    countClears (Out.text s :: r) = countClears r := rfl

theorem countClears_append (a b : List Out) :
    countClears (a ++ b) = countClears a + countClears b := by
  induction a with
  | nil => simp
  | cons o r ih =>
    cases o
    · simp [ih]
    · simp [ih]
      omega
    · simp [ih]

theorem countClears_block (g : Nat → List Out) (n : Nat)
    (h : ∀ i, countClears (g i) = 1) :
    countClears ((List.range n).flatMap g) = n := by
  induction n with
  | zero => rfl
  | succ n ih =>
    rw [List.range_succ, List.flatMap_append, countClears_append, ih]
    simp [h]

theorem update_interactive_eq (st : LiveTail) (line : String)
    (hansi : st.ansi = true) (hne : rstripNewlines line ≠ "") :
    st.update line =
      (⟨st.lines, dequeAppend st.lines st.buf (rstripNewlines line),
        (match searchPct (rstripNewlines line).data with
         | some p => some (String.mk p)
         | none => st.percent), st.ansi⟩,
       Out.moveUpF (st.lines + 1) :: Out.clearLine ::
       Out.text ("Progress: " ++
         pyOr (match searchPct (rstripNewlines line).data with
           | some p => some (String.mk p)
           | none => st.percent) "--" ++ "%\n") ::
       (List.range st.lines).flatMap (fun i =>
         Out.clearLine ::
         (match (dequeAppend st.lines st.buf (rstripNewlines line))[i]? with
          | some s => [Out.text (s.take 160), Out.text "\n"]
          | none => [Out.text "\n"]))) := by
  simp only [LiveTail.update, if_neg hne, hansi, if_true]

/-- C5: in interactive mode, every update on a non-empty line moves the
cursor up `N+1` rows and redraws exactly `N+1` rows: one progress row
`Progress: {P}%` — showing `--` whenever no percentage has ever been
observed — followed by the `N` tail slots, each cleared and rewritten
with the corresponding buffered line truncated to 160 characters, or left
blank when no buffered line exists for that slot. -/
theorem interactive_redraw_rows (st : LiveTail) (line : String)
    (hansi : st.ansi = true) (hne : rstripNewlines line ≠ "") :
    (st.update line).2 =
      Out.moveUpF (st.lines + 1) :: Out.clearLine ::
        Out.text ("Progress: " ++
          pyOr (st.update line).1.percent "--" ++ "%\n") ::
        (List.range st.lines).flatMap (fun i =>
          Out.clearLine ::
          (match (st.update line).1.buf[i]? with
           | some s => [Out.text (s.take 160), Out.text "\n"]
           | none => [Out.text "\n"])) ∧
      countClears (st.update line).2 = st.lines + 1 ∧
      ((st.update line).1.percent = none →
        pyOr (st.update line).1.percent "--" = "--") := by
  refine ⟨?_, ?_, ?_⟩
  · rw [update_interactive_eq st line hansi hne]
  · rw [update_interactive_eq st line hansi hne]
    show countClears (Out.moveUpF _ :: Out.clearLine :: Out.text _ :: _) = _
    rw [countClears_moveUpF, countClears_clear, countClears_text]
    rw [countClears_block]
    intro i
    cases hb : (dequeAppend st.lines st.buf (rstripNewlines line))[i]? <;>
      simp [hb]
  · intro h
    rw [h]
    rfl

theorem interactive_redraw_rows_w :
    countClears ((⟨2, ["old"], none, true⟩ : LiveTail).update "hi").2 =
      2 + 1 :=
  (interactive_redraw_rows ⟨2, ["old"], none, true⟩ "hi" rfl (by decide)).2.1

theorem isDig_ne_pct {c : Char} (h : isDig c = true) : c ≠ '%' := by
  intro he
  subst he
  exact absurd h (by decide)

theorem digitsPct_cons {q : List Char} (c : Char) {s : List Char}
    (h : digitsPct q s) : digitsPct q (c :: s) := by
  obtain ⟨h1, h3, hd, x, y, hx⟩ := h
  exact ⟨h1, h3, hd, c :: x, y, by rw [hx]; rfl⟩

theorem head_match_impossible (a run b p y : List Char)
    (hlen : 4 ≤ run.length)
    (hdig : ∀ c ∈ run, isDig c = true)
    (hno : ∀ q, ¬ digitsPct q a)
    (h1 : 1 ≤ p.length) (h3 : p.length ≤ 3)
    (hpd : ∀ c ∈ p, isDig c = true)
    (heq : a ++ (run ++ '%' :: b) = p ++ '%' :: y) : False := by
  rcases List.append_eq_append_iff.mp heq with ⟨e, he1, he2⟩ | ⟨e, he1, he2⟩
  · rcases e with _ | ⟨w, e'⟩
    · rcases run with _ | ⟨rd, rt⟩
      · simp at hlen
      · simp only [List.nil_append, List.cons_append] at he2
        injection he2 with hrd _
        exact isDig_ne_pct (hdig rd (by simp)) hrd
    · rcases List.append_eq_append_iff.mp he2 with ⟨f, hf1, hf2⟩ | ⟨f, hf1, hf2⟩
      · have hl1 := congrArg List.length he1
        have hl3 := congrArg List.length hf1
        simp [List.length_append] at hl1 hl3
        omega
      · rcases f with _ | ⟨v, f'⟩
        · have hl1 := congrArg List.length he1
          have hl2 := congrArg List.length hf1
          simp [List.length_append] at hl1 hl2
          omega
        · simp only [List.cons_append] at hf2
          injection hf2 with hv _
          exact isDig_ne_pct (hdig v (by rw [hf1]; simp)) hv.symm
  · rcases e with _ | ⟨z, e''⟩
    · simp only [List.nil_append] at he2
      rcases run with _ | ⟨rd, rt⟩
      · simp at hlen
      · simp only [List.cons_append] at he2
        injection he2 with hrd _
        exact isDig_ne_pct (hdig rd (by simp)) hrd.symm
    · simp only [List.cons_append] at he2
      injection he2 with hz _
      exact hno p ⟨h1, h3, hpd, [], e'', by rw [he1, hz]; simp⟩

theorem searchPct_cons_some (c : Char) (rest m : List Char)
    (h : matchPctAt (c :: rest) = some m) :
    searchPct (c :: rest) = some m := by
  simp only [searchPct, h]

theorem searchPct_cons_none (c : Char) (rest : List Char)
    (h : matchPctAt (c :: rest) = none) :
    searchPct (c :: rest) = searchPct rest := by
  simp only [searchPct, h]

theorem searchPct_long_run : ∀ (run b : List Char), 3 ≤ run.length →
    (∀ c ∈ run, isDig c = true) →
    searchPct (run ++ '%' :: b) = some (run.drop (run.length - 3)) := by
  intro run
  induction run with
  | nil => intro b h _; simp at h
  | cons d run' ih =>
    intro b hlen hdig
    rcases run' with _ | ⟨e1, _ | ⟨e2, _ | ⟨e3, t⟩⟩⟩
    · simp at hlen
    · simp at hlen
    · -- run = [d, e1, e2]: the match fires here
      have hd := hdig d (by simp)
      have he1 := hdig e1 (by simp)
      have he2 := hdig e2 (by simp)
      have hm : matchPctAt (d :: e1 :: e2 :: '%' :: b) = some [d, e1, e2] := by
        simp [matchPctAt, hd, he1, he2]
      show searchPct (d :: (e1 :: e2 :: '%' :: b)) = _
      rw [searchPct_cons_some _ _ _ hm]
      rfl
    · -- run = d :: e1 :: e2 :: e3 :: t, length ≥ 4: no match at the head
      have hnm : matchPctAt (d :: (e1 :: e2 :: e3 :: t ++ '%' :: b)) =
          none := by
        have h3 := hdig e3 (by simp)
        simp [matchPctAt, isDig_ne_pct (hdig e1 (by simp)),
          isDig_ne_pct (hdig e2 (by simp)), isDig_ne_pct h3]
      have step := ih b (by simp) (fun c hc => hdig c (by simp [hc]))
      show searchPct (d :: (e1 :: e2 :: e3 :: t ++ '%' :: b)) = _
      rw [searchPct_cons_none _ _ hnm, step]
      congr 1

theorem searchPct_skip_prefix : ∀ (a run b : List Char), 4 ≤ run.length →
    (∀ c ∈ run, isDig c = true) → (∀ q, ¬ digitsPct q a) →
    searchPct (a ++ run ++ '%' :: b) = searchPct (run ++ '%' :: b) := by
  intro a
  induction a with
  | nil => intro run b _ _ _; simp
  | cons c a' ih =>
    intro run b hlen hdig hno
    have hnm : matchPctAt (c :: (a' ++ run ++ '%' :: b)) = none := by
      cases hm : matchPctAt (c :: (a' ++ run ++ '%' :: b)) with
      | none => rfl
      | some p =>
        exfalso
        obtain ⟨h1, h3, hpd, y, hy⟩ := matchPctAt_sound hm
        refine head_match_impossible (c :: a') run b p y hlen hdig hno
          h1 h3 hpd ?_
        simpa using hy
    show searchPct (c :: (a' ++ run ++ '%' :: b)) = _
    rw [searchPct_cons_none _ _ hnm]
    exact ih run b hlen hdig (fun q hq => hno q (digitsPct_cons c hq))

/-- C10: on a line whose stripped text is `a ++ run ++ "%" ++ b`, where
`run` is four or more consecutive digits and the prefix `a` contains no
digit-percent pattern of its own (no earlier match), `update` sets the
percentage to the LAST THREE digits of the run — e.g. `"1234%"` yields
`"234"` — rather than ignoring the over-long run or taking all of its
digits. -/
theorem long_digit_run_last_three (st : LiveTail) (line : String)
    (a run b : List Char)
    (hsplit : (rstripNewlines line).data = a ++ run ++ '%' :: b)
    (hlen : 4 ≤ run.length) (hdig : ∀ c ∈ run, isDig c = true)
    (hno : ∀ q, ¬ digitsPct q a) :
    (st.update line).1.percent =
      some (String.mk (run.drop (run.length - 3))) := by
  have hne : rstripNewlines line ≠ "" := by
    intro he
    have h0 : (rstripNewlines line).data.length = 0 := by rw [he]; rfl
    rw [hsplit] at h0
    simp [List.length_append] at h0
  have hs : searchPct (rstripNewlines line).data =
      some (run.drop (run.length - 3)) := by
    rw [hsplit, searchPct_skip_prefix a run b hlen hdig hno,
      searchPct_long_run run b (by omega) hdig]
  exact update_percent_match st line _ hs hne

theorem long_digit_run_last_three_w :
    ((LiveTail.init 5 false).update "1234%").1.percent =
      some (String.mk (['1', '2', '3', '4'].drop
        (['1', '2', '3', '4'].length - 3))) :=
  long_digit_run_last_three (LiveTail.init 5 false) "1234%" []
    ['1', '2', '3', '4'] [] (by decide) (by decide) (by decide)
    digitsPct_nil

